import Mathlib

/-!
# Verification of the critical-path tool (`src/critical_path_tool.py`)

Shallow embedding of the class `DigitalCircuit` and its methods
`identify_node_type`, `calculate_path_delay` and `find_critical_path`,
together with proofs of the specified properties.

Modelling decisions, recorded once here:

* Python floats are modelled as exact rationals.  Every delay in the fixed
  table of `DigitalCircuit.__init__` (0.0, 0.2, 1.0) is an exact decimal,
  and `float('-inf')` is modelled as `none` in `Option ℚ`; `some q` is the
  finite float value `q`.  IEEE arithmetic on these values is exact except
  that 0.2 has no exact binary representation; that rounding can only move
  a strict comparison between two *near-equal* path sums, i.e. it can only
  affect which of two almost-tied paths is preferred — none of the
  properties proved below depends on such a tie.
* `-inf + d` is `-inf` and `-inf < x ↔ x ≠ -inf`, exactly as in IEEE
  arithmetic; see `eadd` and `elt`.
* The `networkx` `DiGraph` is modelled by its observable content: the node
  list in insertion order (`nodes`), the edge list in insertion order
  (`edges`), and iteration orders derived from them (`graph.nodes()`
  iterates in insertion order, `graph.successors(n)` in edge-insertion
  order).  `nx.topological_sort` is Kahn's algorithm: repeatedly emit the
  pending nodes that have no incoming edge from a pending node, and fail
  with `NetworkXUnfeasible` exactly when no progress is possible; `kahn`
  below implements this with explicit fuel (one round removes at least one
  node, so `nodes.length` rounds always suffice).
* The Python dicts `distances` and `predecessors` are keyed by every graph
  node and only ever read or written at graph nodes, so they are modelled
  as total functions; the value at a string that is not a graph node is
  the initialisation value and is never consulted by the algorithm.
* `self.delays` is assigned the literal table in `__init__` and never
  written again anywhere in the program, so it is modelled as a constant.
-/

namespace CriticalPathTool

/-- Extended delay values: `none` is `float('-inf')`, `some q` a finite
float.  `eadd` is `distances[node] + node_delay` (the second summand is
always finite in the source). -/
def eadd : Option ℚ → ℚ → Option ℚ
  | none, _ => none
  | some a, d => some (a + d)

/-- `elt a b` is the IEEE comparison `a < b` on `{-inf} ∪ ℚ`. -/
def elt : Option ℚ → Option ℚ → Bool
  | _, none => false
  | none, some _ => true
  | some a, some b => decide (a < b)

/-- The state of one `DigitalCircuit` object as far as the analysed methods
read it: the graph (node list and edge list of the `nx.DiGraph`, in
insertion order) and the dict `self.node_types` (as a partial map). -/
structure DigitalCircuit where
  nodes : List String
  edges : List (String × String)
  node_types : String → Option String

/-- The component delay table assigned in `DigitalCircuit.__init__`
(`self.delays`); floats as exact rationals (`0.2 = 1/5`). -/
def delays : List (String × ℚ) :=
  [("ADD", 1), ("MUL", 1), ("REG", 1/5), ("MUX", 1), ("INPUT", 0), ("OUTPUT", 0)]

/-- `self.delays.get(t, 0.0)`. -/
def delaysGet (t : String) : ℚ := (delays.lookup t).getD 0

/-- `DigitalCircuit.identify_node_type`: `self.node_types.get(node_id, "UNKNOWN")`. -/
def identify_node_type (c : DigitalCircuit) (node_id : String) : String :=
  (c.node_types node_id).getD "UNKNOWN"

/-- `DigitalCircuit.calculate_path_delay`: fold `total_delay += delays.get(type, 0.0)`
over the path, starting from `0.0`. -/
def calculate_path_delay (c : DigitalCircuit) (path : List String) : ℚ :=
  path.foldl (fun total_delay node =>
    total_delay + delaysGet (identify_node_type c node)) 0

/-- `self.graph.successors(node)`: targets of the edges leaving `node`,
in edge-insertion order. -/
def successors (c : DigitalCircuit) (node : String) : List String :=
  (c.edges.filter (fun e => e.1 == node)).map (fun e => e.2)

/-- The generator `(node for node in self.graph.nodes() if self.identify_node_type(node) == 'OUTPUT')`. -/
def outputNodes (c : DigitalCircuit) : List String :=
  c.nodes.filter (fun node => identify_node_type c node == "OUTPUT")

/-- One round of Kahn's algorithm: the pending nodes with no incoming edge
from a pending node. -/
def readyNodes (edges : List (String × String)) (pending : List String) : List String :=
  pending.filter (fun v => !(edges.any (fun e => e.2 == v && pending.contains e.1)))

/-- Kahn's algorithm (the algorithm behind `nx.topological_sort`): emit the
zero-in-degree pending nodes round by round, recursing on the pending nodes
that still have an incoming edge from a pending node; `none` models the
`NetworkXUnfeasible` exception raised when no pending node is ready.  The
fuel argument only bounds the number of rounds; each successful round
removes at least one pending node, so fuel `pending.length` is never
exhausted. -/
def kahn (edges : List (String × String)) : Nat → List String → Option (List String)
  | 0, pending => if pending.isEmpty then some [] else none
  | fuel + 1, pending =>
    if pending.isEmpty then some []
    else
      let ready := readyNodes edges pending
      if ready.isEmpty then none
      else
        match kahn edges fuel
            (pending.filter (fun v => edges.any (fun e => e.2 == v && pending.contains e.1))) with
        | some rest => some (ready ++ rest)
        | none => none

/-- `list(nx.topological_sort(self.graph))`; `none` models the
`NetworkXUnfeasible` exception. -/
def topological_sort (c : DigitalCircuit) : Option (List String) :=
  kahn c.edges c.nodes.length c.nodes

/-- The local dicts `distances` and `predecessors` of `find_critical_path`. -/
structure DPState where
  distances : String → Option ℚ
  predecessors : String → Option String

/-- `distances = {node: float('-inf') for node in self.graph.nodes()}`,
then `distances[node] = 0` for nodes of type INPUT;
`predecessors = {node: None for node in self.graph.nodes()}`. -/
def initState (c : DigitalCircuit) : DPState where
  distances := fun node =>
    if c.nodes.contains node && (identify_node_type c node == "INPUT")
    then some 0 else none
  predecessors := fun _ => none

/-- The body of the inner loop of `find_critical_path`:
`new_distance = distances[node] + node_delay;
 if new_distance > distances[successor]: update both dicts`. -/
def relaxStep (node : String) (node_delay : ℚ) (st : DPState) (s : String) : DPState :=
  let new_distance := eadd (st.distances node) node_delay
  if elt (st.distances s) new_distance then
    { distances := fun x => if x = s then new_distance else st.distances x
      predecessors := fun x => if x = s then some node else st.predecessors x }
  else st

/-- Processing one node of the topological order: relax every successor,
with `node_delay = self.delays.get(self.identify_node_type(node), 0.0)`. -/
def relaxNode (c : DigitalCircuit) (st : DPState) (node : String) : DPState :=
  (successors c node).foldl
    (relaxStep node (delaysGet (identify_node_type c node))) st

/-- The whole DP loop `for node in topo_sort: ...`. -/
def runDP (c : DigitalCircuit) (topo_sort : List String) : DPState :=
  topo_sort.foldl (relaxNode c) (initState c)

/-- Python `max(iterable, key=lambda x: distances[x])`: scan the list,
replacing the current best exactly when the new key is strictly greater
(so the first maximal element wins); `none` models the `ValueError`
raised on an empty iterable. -/
def maxByDistances (dist : String → Option ℚ) : List String → Option String
  | [] => none
  | x :: xs => some (xs.foldl (fun best y => if elt (dist best) (dist y) then y else best) x)

/-- The reconstruction loop
`while current is not None: critical_path.append(current); current = predecessors[current]`.
The fuel bounds the number of iterations; in `find_critical_path` it is
instantiated with the number of graph nodes, which the proofs show is
never exhausted (the predecessor chain strictly descends the topological
order). -/
def walkPred (predecessors : String → Option String) : Nat → String → List String
  | 0, current => [current]
  | fuel + 1, current =>
    match predecessors current with
    | some p => current :: walkPred predecessors fuel p
    | none => [current]

/-- The ways `find_critical_path` can fail.

`valueErrorEmptyMax` is Python's builtin `ValueError`, raised by `max()`
over an empty sequence — the only exception the method itself can raise
(it happens exactly when the graph has no OUTPUT-typed node).

`noOutputNodeError` — modelled from the spec: the specification's error
taxonomy names a distinct error kind `NoOutputNodeError` for the
no-OUTPUT case, but the source defines no such class, so this constructor
exists only so the specified behaviour can be stated and compared; the
embedded code never produces it. -/
inductive CircuitError where
  | valueErrorEmptyMax
  | noOutputNodeError
deriving DecidableEq

/-- `DigitalCircuit.find_critical_path`.

* Cycle: the `except nx.NetworkXUnfeasible` branch prints
  "Error: Circuit contains cycles" and returns `([], 0.0)` — a normal
  return, modelled as `.ok ([], some 0)`; the print itself is exposed as
  `cyclic_error_reported` below.
* No OUTPUT node: `max()` raises `ValueError`, which propagates out.
* Otherwise: run the DP, pick the OUTPUT node with maximum distance,
  rebuild the path backwards through `predecessors` and reverse it. -/
def find_critical_path (c : DigitalCircuit) :
    Except CircuitError (List String × Option ℚ) :=
  match topological_sort c with
  | none => .ok ([], some 0)
  | some topo_sort =>
    let st := runDP c topo_sort
    match maxByDistances st.distances (outputNodes c) with
    | none => .error .valueErrorEmptyMax
    | some end_node =>
      .ok ((walkPred st.predecessors c.nodes.length end_node).reverse,
           st.distances end_node)

/-- Whether the call prints "Error: Circuit contains cycles": trace of the
`except nx.NetworkXUnfeasible` branch. -/
def cyclic_error_reported (c : DigitalCircuit) : Bool :=
  (topological_sort c).isNone

/-- `find_critical_path` as a state transformer over the object it is
called on.  The method body reads `self.graph`, `self.node_types` and
`self.delays` but assigns only to local variables (`topo_sort`,
`distances`, `predecessors`, `critical_path`), so each branch hands back
the `DigitalCircuit` it received. -/
def find_critical_path_st (c : DigitalCircuit) :
    Except CircuitError (List String × Option ℚ) × DigitalCircuit :=
  match topological_sort c with
  | none => (.ok ([], some 0), c)
  | some topo_sort =>
    let st := runDP c topo_sort
    match maxByDistances st.distances (outputNodes c) with
    | none => (.error .valueErrorEmptyMax, c)
    | some end_node =>
      (.ok ((walkPred st.predecessors c.nodes.length end_node).reverse,
            st.distances end_node), c)

/-- Well-formedness invariants `networkx` maintains for every `DiGraph`:
node identifiers are unique, and `add_edge` registers both endpoints as
nodes, so every edge endpoint is a node. -/
def WF (c : DigitalCircuit) : Prop :=
  c.nodes.Nodup ∧ ∀ e ∈ c.edges, e.1 ∈ c.nodes ∧ e.2 ∈ c.nodes

instance (c : DigitalCircuit) : Decidable (WF c) := by
  unfold WF
  infer_instance

/-- The graph has a directed cycle: some node reaches itself by a
nonempty chain of edges. -/
def HasCycle (c : DigitalCircuit) : Prop :=
  ∃ v, Relation.TransGen (fun a b => (a, b) ∈ c.edges) v v

/-- `v` is reachable from some INPUT-typed graph node along directed
edges (in zero or more steps). -/
def ReachableFromInput (c : DigitalCircuit) (v : String) : Prop :=
  ∃ i, i ∈ c.nodes ∧ identify_node_type c i = "INPUT" ∧
    Relation.ReflTransGen (fun a b => (a, b) ∈ c.edges) i v

/-! ## Concrete circuits used as test inputs

Each corresponds to a `DigitalCircuit` object right after parsing the
matching description file (nodes and edges in insertion order). -/

/-- The linear chain INPUT(I1) → ADD(A1) → ADD(A2) → OUTPUT(O1). -/
def cChain : DigitalCircuit where
  nodes := ["I1", "A1", "A2", "O1"]
  edges := [("I1", "A1"), ("A1", "A2"), ("A2", "O1")]
  node_types := fun id =>
    if id = "I1" then some "INPUT"
    else if id = "A1" then some "ADD"
    else if id = "A2" then some "ADD"
    else if id = "O1" then some "OUTPUT"
    else none

/-- A single OUTPUT node and nothing else (no INPUT at all). -/
def cOnlyOut : DigitalCircuit where
  nodes := ["O1"]
  edges := []
  node_types := fun id => if id = "O1" then some "OUTPUT" else none

/-- A single INPUT node, no OUTPUT node. -/
def cNoOut : DigitalCircuit where
  nodes := ["I1"]
  edges := []
  node_types := fun id => if id = "I1" then some "INPUT" else none

/-- The two-node cycle A → B, B → A. -/
def cCyc : DigitalCircuit where
  nodes := ["A", "B"]
  edges := [("A", "B"), ("B", "A")]
  node_types := fun id =>
    if id = "A" then some "ADD" else if id = "B" then some "ADD" else none

/-- An INPUT feeding one OUTPUT, plus a second OUTPUT unreachable from any
INPUT. -/
def cTwoOut : DigitalCircuit where
  nodes := ["I1", "O1", "O2"]
  edges := [("I1", "O1")]
  node_types := fun id =>
    if id = "I1" then some "INPUT"
    else if id = "O1" then some "OUTPUT"
    else if id = "O2" then some "OUTPUT"
    else none

/-! ## Basic facts about the extended values -/

theorem elt_none_right (a : Option ℚ) : elt a none = false := by
  cases a <;> rfl

theorem isSome_of_elt {a b : Option ℚ} (h : elt a b = true) : b.isSome := by
  cases b
  · rw [elt_none_right] at h; exact absurd h (by simp)
  · rfl

theorem eadd_isSome (a : Option ℚ) (d : ℚ) : (eadd a d).isSome = a.isSome := by
  cases a <;> rfl

theorem eadd_eq_some {a : Option ℚ} {d w : ℚ} (h : eadd a d = some w) :
    ∃ q, a = some q ∧ w = q + d := by
  cases a with
  | none => exact absurd h (by simp [eadd])
  | some q => exact ⟨q, rfl, by simpa [eadd] using h.symm⟩

/-! ## Facts about `readyNodes` and `kahn` -/

theorem mem_readyNodes {edges : List (String × String)} {pending : List String} {v : String} :
    v ∈ readyNodes edges pending ↔
      v ∈ pending ∧ ∀ u, (u, v) ∈ edges → u ∉ pending := by
  unfold readyNodes
  rw [List.mem_filter]
  simp only [Bool.not_eq_true', List.any_eq_false, Bool.and_eq_false_iff, beq_eq_false_iff_ne,
    ne_eq, List.contains, Prod.forall]
  constructor
  · rintro ⟨hv, hb⟩
    refine ⟨hv, fun u hu hup => ?_⟩
    have := hb u v hu
    simp [List.elem_iff, hup] at this
  · rintro ⟨hv, hb⟩
    refine ⟨hv, fun u w hu => ?_⟩
    intro hcontra
    simp only [Bool.and_eq_true, beq_iff_eq, List.elem_iff] at hcontra
    exact hb u (hcontra.1 ▸ hu) hcontra.2

theorem readyNodes_eq_nil {edges : List (String × String)} {pending : List String}
    (h : readyNodes edges pending = []) :
    ∀ v ∈ pending, ∃ u ∈ pending, (u, v) ∈ edges := by
  intro v hv
  by_contra hc
  push_neg at hc
  have : v ∈ readyNodes edges pending :=
    mem_readyNodes.mpr ⟨hv, fun u hu hup => hc u hup hu⟩
  rw [h] at this
  exact absurd this (List.not_mem_nil v)

theorem kahn_perm {edges : List (String × String)} :
    ∀ fuel pending t, kahn edges fuel pending = some t → List.Perm t pending := by
  intro fuel
  induction fuel with
  | zero =>
    intro pending t h
    unfold kahn at h
    by_cases hp : pending.isEmpty
    · rw [if_pos hp] at h
      obtain rfl : ([] : List String) = t := Option.some.inj h
      rw [List.isEmpty_iff] at hp
      rw [hp]
    · rw [if_neg hp] at h; exact absurd h (by simp)
  | succ fuel ih =>
    intro pending t h
    unfold kahn at h
    by_cases hp : pending.isEmpty
    · rw [if_pos hp] at h
      obtain rfl : ([] : List String) = t := Option.some.inj h
      rw [List.isEmpty_iff] at hp
      rw [hp]
    · rw [if_neg hp] at h
      simp only at h
      by_cases hr : (readyNodes edges pending).isEmpty
      · rw [if_pos hr] at h; exact absurd h (by simp)
      · rw [if_neg hr] at h
        rcases hrec : kahn edges fuel
            (pending.filter fun v =>
              edges.any (fun e => e.2 == v && pending.contains e.1)) with _ | rest
        · rw [hrec] at h; exact absurd h (by simp)
        · rw [hrec] at h
          obtain rfl : readyNodes edges pending ++ rest = t := Option.some.inj h
          have hperm := ih _ _ hrec
          have h1 : List.Perm (readyNodes edges pending ++ rest)
              (readyNodes edges pending ++ pending.filter (fun v =>
                edges.any (fun e => e.2 == v && pending.contains e.1))) :=
            List.Perm.append_left _ hperm
          refine h1.trans ?_
          unfold readyNodes
          simpa using List.filter_append_perm
            (fun v => !(edges.any (fun e => e.2 == v && pending.contains e.1))) pending

/-- In any successful Kahn run, the source of an edge is emitted strictly
before the target: wherever the output is split at the target, the source
(if pending) lies in the prefix. -/
theorem kahn_src_before {edges : List (String × String)} :
    ∀ fuel pending t, kahn edges fuel pending = some t →
      ∀ u v a b, (u, v) ∈ edges → u ∈ pending → t = a ++ v :: b → u ∈ a := by
  intro fuel
  induction fuel with
  | zero =>
    intro pending t h u v a b _ _ hsplit
    unfold kahn at h
    by_cases hp : pending.isEmpty
    · rw [if_pos hp] at h
      obtain rfl : ([] : List String) = t := Option.some.inj h
      exact absurd hsplit.symm (by simp)
    · rw [if_neg hp] at h; exact absurd h (by simp)
  | succ fuel ih =>
    intro pending t h u v a b he hu hsplit
    unfold kahn at h
    by_cases hp : pending.isEmpty
    · rw [if_pos hp] at h
      obtain rfl : ([] : List String) = t := Option.some.inj h
      exact absurd hsplit.symm (by simp)
    · rw [if_neg hp] at h
      simp only at h
      by_cases hr : (readyNodes edges pending).isEmpty
      · rw [if_pos hr] at h; exact absurd h (by simp)
      · rw [if_neg hr] at h
        rcases hrec : kahn edges fuel
            (pending.filter fun v =>
              edges.any (fun e => e.2 == v && pending.contains e.1)) with _ | rest
        · rw [hrec] at h; exact absurd h (by simp)
        · rw [hrec] at h
          obtain rfl : readyNodes edges pending ++ rest = t := Option.some.inj h
          -- the target v is not ready, since u is a pending in-neighbour
          have hvr : v ∉ readyNodes edges pending := fun hvr =>
            (mem_readyNodes.mp hvr).2 u he hu
          -- so the split point lies inside `rest`
          obtain ⟨a₂, ha, hrest_split⟩ :
              ∃ a₂, a = readyNodes edges pending ++ a₂ ∧ rest = a₂ ++ v :: b := by
            rcases List.append_eq_append_iff.mp hsplit.symm with ⟨w, hw1, hw2⟩ | ⟨w, hw1, hw2⟩
            · cases w with
              | nil => exact ⟨[], by simpa using hw1.symm, by simpa using hw2.symm⟩
              | cons x xs =>
                obtain rfl : x = v := (List.cons.inj hw2.symm).1
                exact absurd (hw1 ▸ List.mem_append_right a (List.mem_cons_self x xs)) hvr
            · exact ⟨w, hw1, hw2⟩
          by_cases hur : u ∈ readyNodes edges pending
          · exact ha ▸ List.mem_append_left _ hur
          · -- u is still pending in the recursive call
            have hu' : u ∈ pending.filter (fun v =>
                edges.any (fun e => e.2 == v && pending.contains e.1)) := by
              rw [List.mem_filter]
              refine ⟨hu, ?_⟩
              rw [List.any_eq_true]
              have : ∃ w ∈ pending, (w, u) ∈ edges := by
                by_contra hcon
                push_neg at hcon
                exact hur (mem_readyNodes.mpr ⟨hu, fun w hw hwp => hcon w hwp hw⟩)
              obtain ⟨w, hwp, hwe⟩ := this
              exact ⟨(w, u), hwe, by simp [List.contains, List.elem_iff, hwp]⟩
            have := ih _ _ hrec u v a₂ b he hu' hrest_split
            exact ha ▸ List.mem_append_right _ this

/-- If the graph has no directed cycle, Kahn's algorithm succeeds whenever
the fuel is at least the number of pending nodes (each round removes at
least one node). -/
theorem kahn_total {edges : List (String × String)}
    (hnc : ¬ ∃ x, Relation.TransGen (fun a b => (a, b) ∈ edges) x x) :
    ∀ fuel pending, pending.length ≤ fuel → (kahn edges fuel pending).isSome := by
  intro fuel
  induction fuel with
  | zero =>
    intro pending hlen
    obtain rfl : pending = [] := List.eq_nil_of_length_eq_zero (Nat.le_zero.mp hlen)
    unfold kahn
    simp
  | succ fuel ih =>
    intro pending hlen
    unfold kahn
    by_cases hp : pending.isEmpty
    · simp [hp]
    · rw [if_neg hp]
      simp only
      by_cases hr : (readyNodes edges pending).isEmpty
      · -- no ready node: every pending node has a pending in-neighbour,
        -- which yields a directed cycle by pigeonhole
        exfalso
        have hstep : ∀ v ∈ pending, ∃ u ∈ pending, (u, v) ∈ edges :=
          readyNodes_eq_nil (List.isEmpty_iff.mp hr)
        obtain ⟨v₀, hv₀⟩ : ∃ v, v ∈ pending := by
          rcases pending with _ | ⟨x, xs⟩
          · simp at hp
          · exact ⟨x, List.mem_cons_self x xs⟩
        classical
        let g : {x // x ∈ pending} → {x // x ∈ pending} := fun x =>
          ⟨(hstep x.val x.property).choose, (hstep x.val x.property).choose_spec.1⟩
        have hedge : ∀ x : {x // x ∈ pending}, ((g x).val, x.val) ∈ edges := fun x =>
          (hstep x.val x.property).choose_spec.2
        let f : ℕ → {x // x ∈ pending} := fun n => g^[n] ⟨v₀, hv₀⟩
        have hchain : ∀ i j, i < j →
            Relation.TransGen (fun a b => (a, b) ∈ edges) (f j).val (f i).val := by
          intro i j hij
          induction j, hij using Nat.le_induction with
          | base =>
            have : f (i + 1) = g (f i) := Function.iterate_succ_apply' g i _
            exact Relation.TransGen.single (this ▸ hedge (f i))
          | succ j hij ihj =>
            have : f (j + 1) = g (f j) := Function.iterate_succ_apply' g j _
            exact (Relation.TransGen.single (this ▸ hedge (f j))).trans ihj
        obtain ⟨i, hi, j, hj, hij, hfij⟩ :=
          Finset.exists_ne_map_eq_of_card_lt_of_maps_to
            (s := Finset.range (pending.toFinset.card + 1)) (t := pending.toFinset)
            (f := fun n => (f n).val)
            (by simp) (fun n _ => List.mem_toFinset.mpr (f n).property)
        rcases Nat.lt_or_ge i j with hlt | hge
        · exact hnc ⟨(f i).val, hfij ▸ hchain i j hlt⟩
        · have hlt : j < i := Nat.lt_of_le_of_ne hge (fun hji => hij (hji ▸ rfl))
          exact hnc ⟨(f j).val, hfij ▸ hchain j i hlt⟩
      · rw [if_neg hr]
        have hlt : (pending.filter (fun v =>
            edges.any (fun e => e.2 == v && pending.contains e.1))).length <
            pending.length := by
          obtain ⟨r, hrm⟩ : ∃ r, r ∈ readyNodes edges pending := by
            rcases hready : readyNodes edges pending with _ | ⟨x, xs⟩
            · exact absurd hready (by simpa [List.isEmpty_iff] using hr)
            · exact ⟨x, hready ▸ List.mem_cons_self x xs⟩
          obtain ⟨hrp, hrno⟩ := mem_readyNodes.mp hrm
          refine List.length_filter_lt_length_iff_exists.mpr ⟨r, hrp, ?_⟩
          rw [Bool.not_eq_true, List.any_eq_false]
          rintro ⟨x, y⟩ hxy
          intro hcontra
          rw [Bool.and_eq_true] at hcontra
          exact hrno x (by rwa [(beq_iff_eq.mp hcontra.1 : y = r)] at hxy)
            (List.elem_iff.mp hcontra.2)
        rcases Option.isSome_iff_exists.mp
            (ih _ (Nat.le_of_lt_succ (Nat.lt_of_lt_of_le hlt hlen))) with ⟨rest, hrest⟩
        rw [hrest]
        simp

/-! ## Facts about `topological_sort` at the circuit level -/

theorem topo_perm {c : DigitalCircuit} {t : List String}
    (h : topological_sort c = some t) : List.Perm t c.nodes :=
  kahn_perm _ _ _ h

theorem topo_mem {c : DigitalCircuit} {t : List String}
    (h : topological_sort c = some t) {x : String} : x ∈ t ↔ x ∈ c.nodes :=
  (topo_perm h).mem_iff

theorem topo_nodup {c : DigitalCircuit} {t : List String}
    (h : topological_sort c = some t) (hwf : WF c) : t.Nodup :=
  (topo_perm h).nodup_iff.mpr hwf.1

/-- Sources come before targets: split the topological order at an edge's
target and the source lies in the prefix. -/
theorem topo_src_before {c : DigitalCircuit} {t : List String}
    (h : topological_sort c = some t) (hwf : WF c) {u v : String} {a b : List String}
    (he : (u, v) ∈ c.edges) (hsplit : t = a ++ v :: b) : u ∈ a :=
  kahn_src_before _ _ _ h u v a b he (hwf.2 _ he).1 hsplit

/-- Targets come after sources: split the topological order at an edge's
source and the target lies in the suffix. -/
theorem topo_target_after {c : DigitalCircuit} {t : List String}
    (h : topological_sort c = some t) (hwf : WF c) {u v : String} {a b : List String}
    (he : (u, v) ∈ c.edges) (hsplit : t = a ++ u :: b) : v ∈ b := by
  have hnd : t.Nodup := topo_nodup h hwf
  have hvt : v ∈ t := (topo_mem h).mpr (hwf.2 _ he).2
  rw [hsplit] at hvt
  rcases List.mem_append.mp hvt with hva | hvb
  · -- v in the prefix: then u would lie before v, contradicting nodup
    exfalso
    obtain ⟨a₁, a₂, rfl⟩ := List.append_of_mem hva
    have hsplit2 : t = a₁ ++ v :: (a₂ ++ u :: b) := by rw [hsplit]; simp
    have hua : u ∈ a₁ := topo_src_before h hwf he hsplit2
    rw [hsplit2] at hnd
    exact (List.disjoint_of_nodup_append hnd) hua (by simp)
  · rcases List.mem_cons.mp hvb with hvu | hvb
    · -- v = u: a self-loop, whose source would have to precede itself
      exfalso
      subst hvu
      have hva : v ∈ a := topo_src_before h hwf he hsplit
      rw [hsplit] at hnd
      exact (List.disjoint_of_nodup_append hnd) hva (by simp)
    · exact hvb

/-- A successful topological sort certifies the graph acyclic. -/
theorem topo_no_cycle {c : DigitalCircuit} {t : List String}
    (h : topological_sort c = some t) (hwf : WF c) : ¬ HasCycle c := by
  rintro ⟨v, hv⟩
  have key : ∀ x y, Relation.TransGen (fun a b => (a, b) ∈ c.edges) x y →
      ∀ a b, t = a ++ x :: b → y ∈ b := by
    intro x y htg
    induction htg with
    | single he => exact fun a b hsplit => topo_target_after h hwf he hsplit
    | @tail m y _ he ih =>
      intro a b hsplit
      have hmb : m ∈ b := ih a b hsplit
      obtain ⟨b₁, b₂, rfl⟩ := List.append_of_mem hmb
      have hy : y ∈ b₂ := topo_target_after h hwf he
        (by rw [hsplit]; exact (List.append_assoc a (x :: b₁) (m :: b₂)).symm)
      exact List.mem_append_right _ (List.mem_cons_of_mem _ hy)
  have hvn : v ∈ c.nodes := by
    cases hv with
    | single he => exact (hwf.2 _ he).2
    | tail _ he => exact (hwf.2 _ he).2
  obtain ⟨a, b, hsplit⟩ := List.append_of_mem ((topo_mem h).mpr hvn)
  have hvb : v ∈ b := key v v hv a b hsplit
  have hnd : t.Nodup := topo_nodup h hwf
  rw [hsplit] at hnd
  exact (List.nodup_cons.mp (List.Nodup.of_append_right hnd)).1 hvb

/-- If the graph is acyclic, the topological sort of the code succeeds. -/
theorem topo_some_of_acyclic {c : DigitalCircuit} (hnc : ¬ HasCycle c) :
    ∃ t, topological_sort c = some t :=
  Option.isSome_iff_exists.mp (kahn_total hnc c.nodes.length c.nodes le_rfl)

/-- If the graph has a cycle, the topological sort of the code fails. -/
theorem topo_none_of_cycle {c : DigitalCircuit} (hwf : WF c) (hcyc : HasCycle c) :
    topological_sort c = none := by
  rcases htopo : topological_sort c with _ | t
  · rfl
  · exact absurd hcyc (topo_no_cycle htopo hwf)

/-! ## Basic facts about the relaxation steps -/

theorem mem_successors {c : DigitalCircuit} {m s : String} :
    s ∈ successors c m ↔ (m, s) ∈ c.edges := by
  unfold successors
  rw [List.mem_map]
  constructor
  · rintro ⟨e, he, rfl⟩
    obtain ⟨hee, heq⟩ := List.mem_filter.mp he
    obtain rfl : e.1 = m := beq_iff_eq.mp heq
    simpa using hee
  · intro he
    exact ⟨(m, s), List.mem_filter.mpr ⟨he, by simp⟩, rfl⟩

theorem relaxStep_of_elt {node : String} {δ : ℚ} {st : DPState} {s : String}
    (h : elt (st.distances s) (eadd (st.distances node) δ) = true) :
    relaxStep node δ st s =
      { distances := fun x => if x = s then eadd (st.distances node) δ else st.distances x
        predecessors := fun x => if x = s then some node else st.predecessors x } := by
  unfold relaxStep
  rw [if_pos h]

theorem relaxStep_of_not_elt {node : String} {δ : ℚ} {st : DPState} {s : String}
    (h : ¬ elt (st.distances s) (eadd (st.distances node) δ) = true) :
    relaxStep node δ st s = st := by
  unfold relaxStep
  rw [if_neg h]

theorem relaxStep_distances_ne {node : String} {δ : ℚ} {st : DPState} {s x : String}
    (hx : x ≠ s) : (relaxStep node δ st s).distances x = st.distances x := by
  by_cases h : elt (st.distances s) (eadd (st.distances node) δ) = true
  · rw [relaxStep_of_elt h]; simp [hx]
  · rw [relaxStep_of_not_elt h]

theorem relaxStep_predecessors_ne {node : String} {δ : ℚ} {st : DPState} {s x : String}
    (hx : x ≠ s) : (relaxStep node δ st s).predecessors x = st.predecessors x := by
  by_cases h : elt (st.distances s) (eadd (st.distances node) δ) = true
  · rw [relaxStep_of_elt h]; simp [hx]
  · rw [relaxStep_of_not_elt h]

theorem relaxStep_isSome {node : String} {δ : ℚ} {st : DPState} {s x : String}
    (h : (st.distances x).isSome) : ((relaxStep node δ st s).distances x).isSome := by
  by_cases he : elt (st.distances s) (eadd (st.distances node) δ) = true
  · rw [relaxStep_of_elt he]
    by_cases hx : x = s
    · simpa [hx] using isSome_of_elt he
    · simpa [hx] using h
  · rw [relaxStep_of_not_elt he]; exact h

/-- A vanished predecessor entry was never written: if after a step the
predecessor of `x` is still `None`, it was `None` before and the distance
of `x` was not touched either (the two dicts are always written together). -/
theorem relaxStep_pred_none {node : String} {δ : ℚ} {st : DPState} {s x : String}
    (h : (relaxStep node δ st s).predecessors x = none) :
    st.predecessors x = none ∧ (relaxStep node δ st s).distances x = st.distances x := by
  by_cases he : elt (st.distances s) (eadd (st.distances node) δ) = true
  · rw [relaxStep_of_elt he] at h ⊢
    by_cases hx : x = s
    · simp [hx] at h
    · simpa [hx] using h
  · rw [relaxStep_of_not_elt he] at h ⊢; exact ⟨h, rfl⟩

theorem foldl_relaxStep_isSome {node : String} {δ : ℚ} :
    ∀ (l : List String) (st : DPState) (x : String), (st.distances x).isSome →
      ((l.foldl (relaxStep node δ) st).distances x).isSome := by
  intro l
  induction l with
  | nil => exact fun st x h => h
  | cons s l ih => exact fun st x h => ih _ _ (relaxStep_isSome h)

theorem foldl_relaxStep_not_mem {node : String} {δ : ℚ} :
    ∀ (l : List String) (st : DPState) (x : String), x ∉ l →
      ((l.foldl (relaxStep node δ) st).distances x = st.distances x ∧
       (l.foldl (relaxStep node δ) st).predecessors x = st.predecessors x) := by
  intro l
  induction l with
  | nil => exact fun st x _ => ⟨rfl, rfl⟩
  | cons s l ih =>
    intro st x hx
    have hxs : x ≠ s := fun hxs => hx (hxs ▸ List.mem_cons_self s l)
    have hxl : x ∉ l := fun hxl => hx (List.mem_cons_of_mem s hxl)
    obtain ⟨h1, h2⟩ := ih (relaxStep node δ st s) x hxl
    exact ⟨h1.trans (relaxStep_distances_ne hxs), h2.trans (relaxStep_predecessors_ne hxs)⟩

theorem foldl_relaxStep_pred_none {node : String} {δ : ℚ} :
    ∀ (l : List String) (st : DPState) (x : String),
      ((l.foldl (relaxStep node δ) st).predecessors x = none) →
      st.predecessors x = none ∧
        (l.foldl (relaxStep node δ) st).distances x = st.distances x := by
  intro l
  induction l with
  | nil => exact fun st x h => ⟨h, rfl⟩
  | cons s l ih =>
    intro st x h
    obtain ⟨h1, h2⟩ := ih (relaxStep node δ st s) x h
    obtain ⟨h3, h4⟩ := relaxStep_pred_none h1
    exact ⟨h3, h2.trans h4⟩

/-! The same facts lifted to `relaxNode` and to the outer fold. -/

theorem relaxNode_isSome {c : DigitalCircuit} {st : DPState} {m x : String}
    (h : (st.distances x).isSome) : ((relaxNode c st m).distances x).isSome :=
  foldl_relaxStep_isSome _ _ _ h

theorem relaxNode_not_succ {c : DigitalCircuit} {st : DPState} {m x : String}
    (h : x ∉ successors c m) :
    (relaxNode c st m).distances x = st.distances x ∧
      (relaxNode c st m).predecessors x = st.predecessors x :=
  foldl_relaxStep_not_mem _ _ _ h

theorem relaxNode_pred_none {c : DigitalCircuit} {st : DPState} {m x : String}
    (h : (relaxNode c st m).predecessors x = none) :
    st.predecessors x = none ∧ (relaxNode c st m).distances x = st.distances x :=
  foldl_relaxStep_pred_none _ _ _ h

theorem foldl_relaxNode_isSome {c : DigitalCircuit} :
    ∀ (l : List String) (st : DPState) (x : String), (st.distances x).isSome →
      ((l.foldl (relaxNode c) st).distances x).isSome := by
  intro l
  induction l with
  | nil => exact fun st x h => h
  | cons m l ih => exact fun st x h => ih _ _ (relaxNode_isSome h)

theorem foldl_relaxNode_stable {c : DigitalCircuit} :
    ∀ (l : List String) (st : DPState) (x : String), (∀ m ∈ l, x ∉ successors c m) →
      ((l.foldl (relaxNode c) st).distances x = st.distances x ∧
       (l.foldl (relaxNode c) st).predecessors x = st.predecessors x) := by
  intro l
  induction l with
  | nil => exact fun st x _ => ⟨rfl, rfl⟩
  | cons m l ih =>
    intro st x hx
    obtain ⟨h1, h2⟩ := ih (relaxNode c st m) x (fun m' hm' => hx m' (List.mem_cons_of_mem m hm'))
    obtain ⟨h3, h4⟩ := relaxNode_not_succ (hx m (List.mem_cons_self m l))
    exact ⟨h1.trans h3, h2.trans h4⟩

theorem foldl_relaxNode_pred_none {c : DigitalCircuit} :
    ∀ (l : List String) (st : DPState) (x : String),
      ((l.foldl (relaxNode c) st).predecessors x = none) →
      st.predecessors x = none ∧
        (l.foldl (relaxNode c) st).distances x = st.distances x := by
  intro l
  induction l with
  | nil => exact fun st x h => ⟨h, rfl⟩
  | cons m l ih =>
    intro st x h
    obtain ⟨h1, h2⟩ := ih (relaxNode c st m) x h
    obtain ⟨h3, h4⟩ := relaxNode_pred_none h1
    exact ⟨h3, h2.trans h4⟩

/-! ## Finite distances and reachability from an INPUT -/

/-- Only reachable nodes ever acquire a finite distance: a relaxation never
advances a successor of a negative-infinity node to a finite value
(`eadd none d = none` and `elt x none = false`). -/
def RInv (c : DigitalCircuit) (st : DPState) : Prop :=
  ∀ v q, st.distances v = some q → ReachableFromInput c v

theorem RInv_init (c : DigitalCircuit) : RInv c (initState c) := by
  intro v q h
  unfold initState at h
  dsimp only at h
  rcases hc : (c.nodes.contains v && (identify_node_type c v == "INPUT")) with _ | _
  · rw [hc] at h; exact absurd h (by simp)
  · rw [Bool.and_eq_true] at hc
    obtain ⟨h1, h2⟩ := hc
    exact ⟨v, by simpa [List.contains, List.elem_iff] using h1, beq_iff_eq.mp h2,
      Relation.ReflTransGen.refl⟩

theorem relaxStep_RInv {c : DigitalCircuit} {node : String} {δ : ℚ} {st : DPState} {s : String}
    (hedge : (node, s) ∈ c.edges) (h : RInv c st) : RInv c (relaxStep node δ st s) := by
  by_cases he : elt (st.distances s) (eadd (st.distances node) δ) = true
  · rw [relaxStep_of_elt he]
    intro v q hv
    dsimp only at hv
    by_cases hx : v = s
    · subst hx
      rw [if_pos rfl] at hv
      obtain ⟨qn, hqn, _⟩ := eadd_eq_some hv
      obtain ⟨i, hi, hti, hrt⟩ := h node qn hqn
      exact ⟨i, hi, hti, hrt.tail hedge⟩
    · rw [if_neg hx] at hv
      exact h v q hv
  · rw [relaxStep_of_not_elt he]; exact h

theorem relaxNode_RInv {c : DigitalCircuit} {st : DPState} {m : String}
    (h : RInv c st) : RInv c (relaxNode c st m) := by
  unfold relaxNode
  have key : ∀ (l : List String) (st' : DPState), (∀ s ∈ l, (m, s) ∈ c.edges) → RInv c st' →
      RInv c (l.foldl (relaxStep m (delaysGet (identify_node_type c m))) st') := by
    intro l
    induction l with
    | nil => exact fun _ _ h' => h'
    | cons s l ih =>
      intro st' hl h'
      exact ih _ (fun s' hs' => hl s' (List.mem_cons_of_mem s hs'))
        (relaxStep_RInv (hl s (List.mem_cons_self s l)) h')
  exact key _ _ (fun s hs => mem_successors.mp hs) h

theorem runDP_RInv {c : DigitalCircuit} (t : List String) : RInv c (runDP c t) := by
  unfold runDP
  have : ∀ (l : List String) (st : DPState), RInv c st → RInv c (l.foldl (relaxNode c) st) := by
    intro l
    induction l with
    | nil => exact fun _ h => h
    | cons m l ih => exact fun st h => ih _ (relaxNode_RInv h)
  exact this t _ (RInv_init c)

/-- Along a node of the topological order, once every successor of the
processed node has been relaxed, each successor of a finite-distance node
is finite. -/
theorem foldl_relaxStep_succ_isSome {m : String} {δ : ℚ} :
    ∀ (l : List String) (st : DPState), (st.distances m).isSome → m ∉ l →
      ∀ s ∈ l, ((l.foldl (relaxStep m δ) st).distances s).isSome := by
  intro l
  induction l with
  | nil => intro st _ _ s hs; exact absurd hs (List.not_mem_nil s)
  | cons s₀ l ih =>
    intro st hm hml s hs
    have hms₀ : m ≠ s₀ := fun h => hml (h ▸ List.mem_cons_self s₀ l)
    have hm' : ((relaxStep m δ st s₀).distances m).isSome := by
      rw [relaxStep_distances_ne hms₀]; exact hm
    rcases List.mem_cons.mp hs with rfl | hsl
    · refine foldl_relaxStep_isSome l _ s ?_
      by_cases he : elt (st.distances s) (eadd (st.distances m) δ) = true
      · rw [relaxStep_of_elt he]
        simpa using isSome_of_elt he
      · rw [relaxStep_of_not_elt he]
        have hsome : (eadd (st.distances m) δ).isSome := by rw [eadd_isSome]; exact hm
        obtain ⟨w, hw⟩ := Option.isSome_iff_exists.mp hsome
        rcases hso : st.distances s with _ | q
        · exact absurd (by rw [hso, hw]; rfl) he
        · simp
    · exact ih _ hm' (fun h => hml (List.mem_cons_of_mem s₀ h)) s hsl

theorem relaxNode_succ_isSome {c : DigitalCircuit} {st : DPState} {m : String}
    (hm : (st.distances m).isSome) (hself : m ∉ successors c m) :
    ∀ s ∈ successors c m, ((relaxNode c st m).distances s).isSome :=
  fun s hs => foldl_relaxStep_succ_isSome _ _ hm hself s hs

/-- Every node reachable from an INPUT node ends the DP with a finite
distance. -/
theorem runDP_reach_isSome {c : DigitalCircuit} {t : List String}
    (hwf : WF c) (ht : topological_sort c = some t) :
    ∀ v, ReachableFromInput c v → ((runDP c t).distances v).isSome := by
  rintro v ⟨i, hi, hti, hrt⟩
  induction hrt with
  | refl =>
    have hinit : (initState c).distances i = some 0 := by
      unfold initState
      dsimp only
      rw [if_pos (by
        rw [Bool.and_eq_true]
        exact ⟨by simp [List.contains, List.elem_iff, hi], beq_iff_eq.mpr hti⟩)]
    unfold runDP
    apply foldl_relaxNode_isSome
    rw [hinit]; rfl
  | @tail u w hru hedge ih =>
    have hu_nodes : u ∈ c.nodes := (hwf.2 _ hedge).1
    obtain ⟨t₁, t₂, hsplit⟩ := List.append_of_mem ((topo_mem ht).mpr hu_nodes)
    have hnd : t.Nodup := topo_nodup ht hwf
    have hnd' : (t₁ ++ u :: t₂).Nodup := hsplit ▸ hnd
    have hself : u ∉ successors c u := by
      intro hs
      have : u ∈ t₁ := topo_src_before ht hwf (mem_successors.mp hs) hsplit
      exact (List.disjoint_of_nodup_append hnd') this (by simp)
    have hstable : ∀ m ∈ t₂, u ∉ successors c m := by
      intro m hm hs
      have : m ∈ t₁ := topo_src_before ht hwf (mem_successors.mp hs) hsplit
      exact (List.disjoint_of_nodup_append hnd') this (by simp [hm])
    -- decompose the DP run at the processing point of u
    have hrw : runDP c t =
        t₂.foldl (relaxNode c) (relaxNode c (t₁.foldl (relaxNode c) (initState c)) u) := by
      rw [runDP, hsplit, List.foldl_append, List.foldl_cons]
    -- the distance of u is stable from just before processing u to the end
    have hstab1 :=
      (@relaxNode_not_succ c (t₁.foldl (relaxNode c) (initState c)) u u hself).1
    have hstab2 := (foldl_relaxNode_stable t₂
      (relaxNode c (t₁.foldl (relaxNode c) (initState c)) u) u hstable).1
    have hu_pre : ((t₁.foldl (relaxNode c) (initState c)).distances u).isSome := by
      have := ih
      rw [hrw, hstab2, hstab1] at this
      exact this
    -- relaxing u makes w finite, and finiteness persists
    have hw_succ : w ∈ successors c u := mem_successors.mpr hedge
    have hw_mid := relaxNode_succ_isSome hu_pre hself w hw_succ
    rw [hrw]
    exact foldl_relaxNode_isSome _ _ _ hw_mid

/-! ## The dist/pred consistency invariant -/

/-- Every recorded predecessor entry `predecessors s = some n` was written
while relaxing the edge `(n, s)` during the processing of `n`; since the
distance of an already-processed node never changes again, the recorded
distance of `s` always equals the current distance of `n` plus `n`'s
delay.  `P` is the list of already-processed nodes. -/
def Inv (c : DigitalCircuit) (P : List String) (st : DPState) : Prop :=
  ∀ s n, st.predecessors s = some n →
    n ∈ P ∧ (n, s) ∈ c.edges ∧
      ∃ qn, st.distances n = some qn ∧
        st.distances s = some (qn + delaysGet (identify_node_type c n))

theorem Inv.mono {c : DigitalCircuit} {P P' : List String} {st : DPState}
    (h : Inv c P st) (hsub : ∀ x ∈ P, x ∈ P') : Inv c P' st := by
  intro s n hp
  obtain ⟨h1, h2, h3⟩ := h s n hp
  exact ⟨hsub _ h1, h2, h3⟩

theorem Inv_init (c : DigitalCircuit) (P : List String) : Inv c P (initState c) := by
  intro s n hp
  exact absurd hp (by simp [initState])

theorem relaxStep_Inv {c : DigitalCircuit} {P : List String} {m s₀ : String} {st : DPState}
    (hInv : Inv c (P ++ [m]) st) (hedge : (m, s₀) ∈ c.edges)
    (hs₀P : s₀ ∉ P) (hs₀m : s₀ ≠ m) :
    Inv c (P ++ [m]) (relaxStep m (delaysGet (identify_node_type c m)) st s₀) := by
  set δ := delaysGet (identify_node_type c m) with hδ
  by_cases he : elt (st.distances s₀) (eadd (st.distances m) δ) = true
  · rw [relaxStep_of_elt he]
    intro s n hp
    dsimp only at hp ⊢
    by_cases hs : s = s₀
    · subst hs
      rw [if_pos rfl] at hp
      obtain rfl : m = n := Option.some.inj hp
      refine ⟨List.mem_append_right _ (List.mem_cons_self m []), hedge, ?_⟩
      have hmne : ¬ (m = s) := fun h => hs₀m h.symm
      have hsome : (eadd (st.distances m) δ).isSome := isSome_of_elt he
      obtain ⟨w, hw⟩ := Option.isSome_iff_exists.mp hsome
      obtain ⟨qm, hqm, rfl⟩ := eadd_eq_some hw
      refine ⟨qm, ?_, ?_⟩
      · rw [if_neg hmne]; exact hqm
      · rw [if_pos rfl, hw]
    · rw [if_neg hs] at hp
      obtain ⟨hn1, hn2, qn, hq1, hq2⟩ := hInv s n hp
      have hns₀ : ¬ (n = s₀) := by
        intro hh
        rcases List.mem_append.mp hn1 with h | h
        · exact hs₀P (hh ▸ h)
        · have : n = m := by simpa using h
          exact hs₀m (hh ▸ this)
      refine ⟨hn1, hn2, qn, ?_, ?_⟩
      · rw [if_neg hns₀]; exact hq1
      · rw [if_neg hs]; exact hq2
  · rw [relaxStep_of_not_elt he]; exact hInv

theorem relaxNode_Inv {c : DigitalCircuit} {P : List String} {m : String} {st : DPState}
    (hInv : Inv c (P ++ [m]) st)
    (hsucc : ∀ s ∈ successors c m, s ∉ P ∧ s ≠ m) :
    Inv c (P ++ [m]) (relaxNode c st m) := by
  unfold relaxNode
  have key : ∀ (l : List String) (st' : DPState),
      (∀ s ∈ l, (m, s) ∈ c.edges ∧ s ∉ P ∧ s ≠ m) → Inv c (P ++ [m]) st' →
      Inv c (P ++ [m]) (l.foldl (relaxStep m (delaysGet (identify_node_type c m))) st') := by
    intro l
    induction l with
    | nil => exact fun _ _ h' => h'
    | cons s l ih =>
      intro st' hl h'
      obtain ⟨he, hP, hm⟩ := hl s (List.mem_cons_self s l)
      exact ih _ (fun s' hs' => hl s' (List.mem_cons_of_mem s hs'))
        (relaxStep_Inv h' he hP hm)
  exact key _ _ (fun s hs => ⟨mem_successors.mp hs, hsucc s hs⟩) hInv

theorem foldl_relaxNode_Inv {c : DigitalCircuit} {t : List String}
    (hwf : WF c) (ht : topological_sort c = some t) :
    ∀ (l P : List String) (st : DPState), t = P ++ l → Inv c P st →
      Inv c t (l.foldl (relaxNode c) st) := by
  intro l
  induction l with
  | nil =>
    intro P st hsplit hInv
    exact hInv.mono (fun x hx => by rw [hsplit]; exact List.mem_append_left _ hx)
  | cons m l ih =>
    intro P st hsplit hInv
    have hnd : (P ++ m :: l).Nodup := hsplit ▸ topo_nodup ht hwf
    have hsucc : ∀ s ∈ successors c m, s ∉ P ∧ s ≠ m := by
      intro s hs
      have hedge := mem_successors.mp hs
      constructor
      · intro hsP
        obtain ⟨P₁, P₂, rfl⟩ := List.append_of_mem hsP
        have hsplit2 : t = P₁ ++ s :: (P₂ ++ m :: l) := by
          rw [hsplit]; exact List.append_assoc P₁ (s :: P₂) (m :: l)
        have hmP₁ : m ∈ P₁ := topo_src_before ht hwf hedge hsplit2
        have hnd2 : (P₁ ++ s :: (P₂ ++ m :: l)).Nodup := hsplit2 ▸ topo_nodup ht hwf
        exact (List.disjoint_of_nodup_append hnd2) hmP₁ (by simp)
      · intro hsm
        subst hsm
        have hsP : s ∈ P := topo_src_before ht hwf hedge hsplit
        exact (List.disjoint_of_nodup_append hnd) hsP (by simp)
    refine ih (P ++ [m]) (relaxNode c st m) (by rw [hsplit]; simp) ?_
    exact relaxNode_Inv (hInv.mono (fun x hx => List.mem_append_left _ hx)) hsucc

/-- The consistency invariant holds of the final DP state, with every node
processed. -/
theorem runDP_Inv {c : DigitalCircuit} {t : List String}
    (hwf : WF c) (ht : topological_sort c = some t) : Inv c t (runDP c t) :=
  foldl_relaxNode_Inv hwf ht t [] (initState c) rfl (Inv_init c [])

/-- A predecessor entry still `None` at the end was never written, so the
distance of that node is its initial value. -/
theorem runDP_pred_none {c : DigitalCircuit} {t : List String} {v : String}
    (h : (runDP c t).predecessors v = none) :
    (runDP c t).distances v = (initState c).distances v :=
  (foldl_relaxNode_pred_none t (initState c) v h).2

theorem initState_dist_some {c : DigitalCircuit} {v : String} {q : ℚ}
    (h : (initState c).distances v = some q) :
    q = 0 ∧ v ∈ c.nodes ∧ identify_node_type c v = "INPUT" := by
  unfold initState at h
  dsimp only at h
  rcases hc : (c.nodes.contains v && (identify_node_type c v == "INPUT")) with _ | _
  · rw [hc] at h; exact absurd h (by simp)
  · rw [hc, if_pos rfl] at h
    rw [Bool.and_eq_true] at hc
    exact ⟨(Option.some.inj h).symm,
      by simpa [List.contains, List.elem_iff] using hc.1, beq_iff_eq.mp hc.2⟩

/-! ## Facts about the maximum selection -/

theorem mem_outputNodes {c : DigitalCircuit} {s : String} :
    s ∈ outputNodes c ↔ s ∈ c.nodes ∧ identify_node_type c s = "OUTPUT" := by
  unfold outputNodes
  rw [List.mem_filter]
  exact ⟨fun ⟨h1, h2⟩ => ⟨h1, beq_iff_eq.mp h2⟩, fun ⟨h1, h2⟩ => ⟨h1, beq_iff_eq.mpr h2⟩⟩

theorem maxByDistances_some {dist : String → Option ℚ} {l : List String} (h : l ≠ []) :
    ∃ m, maxByDistances dist l = some m := by
  rcases l with _ | ⟨x, xs⟩
  · exact absurd rfl h
  · exact ⟨_, rfl⟩

theorem maxByDistances_mem {dist : String → Option ℚ} {l : List String} {m : String}
    (h : maxByDistances dist l = some m) : m ∈ l := by
  rcases l with _ | ⟨x, xs⟩
  · exact absurd h (by simp [maxByDistances])
  · obtain rfl : _ = m := Option.some.inj h
    have key : ∀ (ys : List String) (b : String), b ∈ x :: xs → (∀ y ∈ ys, y ∈ x :: xs) →
        ys.foldl (fun best y => if elt (dist best) (dist y) then y else best) b ∈ x :: xs := by
      intro ys
      induction ys with
      | nil => exact fun b hb _ => hb
      | cons y ys ih =>
        intro b hb hys
        rw [List.foldl_cons]
        refine ih _ ?_ (fun y' hy' => hys y' (List.mem_cons_of_mem y hy'))
        dsimp only
        by_cases he : elt (dist b) (dist y) = true
        · rw [if_pos he]; exact hys y (List.mem_cons_self y ys)
        · rw [if_neg he]; exact hb
    exact key xs x (List.mem_cons_self x xs) (fun y hy => List.mem_cons_of_mem x hy)

/-- The selected maximum has a finite key whenever any candidate does:
`-inf` loses every comparison against a finite value. -/
theorem maxByDistances_isSome {dist : String → Option ℚ} {l : List String} {m y : String}
    (h : maxByDistances dist l = some m) (hy : y ∈ l) (hsome : (dist y).isSome) :
    (dist m).isSome := by
  rcases l with _ | ⟨x, xs⟩
  · exact absurd h (by simp [maxByDistances])
  · obtain rfl : _ = m := Option.some.inj h
    have key : ∀ (ys : List String) (b : String),
        ((dist b).isSome ∨ ∃ y' ∈ ys, (dist y').isSome) →
        (dist (ys.foldl (fun best y => if elt (dist best) (dist y) then y else best) b)).isSome := by
      intro ys
      induction ys with
      | nil =>
        rintro b (hb | ⟨y', hy', _⟩)
        · exact hb
        · exact absurd hy' (List.not_mem_nil y')
      | cons z ys ih =>
        rintro b (hb | ⟨y', hy', hy's⟩)
        · rw [List.foldl_cons]
          refine ih _ (Or.inl ?_)
          dsimp only
          by_cases he : elt (dist b) (dist z) = true
          · rw [if_pos he]; exact isSome_of_elt he
          · rw [if_neg he]; exact hb
        · rcases List.mem_cons.mp hy' with rfl | hy'ys
          · rw [List.foldl_cons]
            refine ih _ (Or.inl ?_)
            dsimp only
            by_cases he : elt (dist b) (dist y') = true
            · rw [if_pos he]; exact isSome_of_elt he
            · rw [if_neg he]
              obtain ⟨q, hq⟩ := Option.isSome_iff_exists.mp hy's
              rcases hb2 : dist b with _ | w
              · exact absurd (by rw [hb2, hq]; rfl) he
              · simp
          · rw [List.foldl_cons]
            exact ih _ (Or.inr ⟨y', hy'ys, hy's⟩)
    rcases List.mem_cons.mp hy with rfl | hyxs
    · exact key xs y (Or.inl hsome)
    · exact key xs x (Or.inr ⟨y, hyxs, hsome⟩)

/-! ## Facts about the path reconstruction -/

theorem walkPred_ne_nil (pred : String → Option String) (fuel : ℕ) (cur : String) :
    walkPred pred fuel cur ≠ [] := by
  cases fuel with
  | zero => simp [walkPred]
  | succ fuel =>
    unfold walkPred
    rcases pred cur with _ | p <;> simp

theorem walkPred_head (pred : String → Option String) (fuel : ℕ) (cur : String) :
    (walkPred pred fuel cur).head? = some cur := by
  cases fuel with
  | zero => simp [walkPred]
  | succ fuel =>
    unfold walkPred
    rcases pred cur with _ | p <;> simp

/-- Structure of the reconstruction: walking the predecessor links from any
node of the topological order, with fuel exceeding the node's position,
produces a nonempty list that starts at the node, ends at a node whose
predecessor is `None`, and steps backwards along graph edges. -/
theorem walkPred_spec {c : DigitalCircuit} {t : List String} {st : DPState}
    (hwf : WF c) (ht : topological_sort c = some t) (hInv : Inv c t st) :
    ∀ (fuel : ℕ) (a b : List String) (cur : String), t = a ++ cur :: b → a.length < fuel →
      ∃ v0, (walkPred st.predecessors fuel cur).getLast? = some v0 ∧
        st.predecessors v0 = none ∧
        List.Chain' (fun x y => (y, x) ∈ c.edges) (walkPred st.predecessors fuel cur) := by
  intro fuel
  induction fuel with
  | zero => exact fun a b cur _ h => absurd h (Nat.not_lt_zero _)
  | succ fuel ih =>
    intro a b cur hsplit hlen
    rcases hp : st.predecessors cur with _ | p
    · have hwalk : walkPred st.predecessors (fuel + 1) cur = [cur] := by
        unfold walkPred; rw [hp]
      rw [hwalk]
      exact ⟨cur, rfl, hp, List.chain'_singleton cur⟩
    · obtain ⟨_, hpedge, _⟩ := hInv cur p hp
      have hpa : p ∈ a := topo_src_before ht hwf hpedge hsplit
      obtain ⟨a₁, a₂, rfl⟩ := List.append_of_mem hpa
      have hsplit2 : t = a₁ ++ p :: (a₂ ++ cur :: b) := by
        rw [hsplit]; exact List.append_assoc a₁ (p :: a₂) (cur :: b)
      have hlen2 : a₁.length < fuel := by
        rw [List.length_append, List.length_cons] at hlen
        omega
      obtain ⟨v0, hlast, hnone, hchain⟩ := ih a₁ (a₂ ++ cur :: b) p hsplit2 hlen2
      have hwalk : walkPred st.predecessors (fuel + 1) cur =
          cur :: walkPred st.predecessors fuel p := by
        conv_lhs => unfold walkPred
        rw [hp]
      rw [hwalk]
      refine ⟨v0, ?_, hnone, ?_⟩
      · rcases hw : walkPred st.predecessors fuel p with _ | ⟨y, ys⟩
        · exact absurd hw (walkPred_ne_nil _ _ _)
        · rw [hw] at hlast
          rw [List.getLast?_cons_cons]
          exact hlast
      · rw [List.chain'_cons']
        refine ⟨fun y hy => ?_, hchain⟩
        have : y = p := by
          rw [walkPred_head st.predecessors fuel p] at hy
          exact (Option.mem_some_iff.mp hy).symm
        rw [this]
        exact hpedge

/-- Delay bookkeeping along the reconstruction: if the walked-from node has
finite distance `q`, the delays of the walked nodes sum to `q` plus the
delay of the walked-from node itself (its own delay was never added to its
distance). -/
theorem walkPred_sum {c : DigitalCircuit} {t : List String} {st : DPState}
    (hwf : WF c) (ht : topological_sort c = some t) (hInv : Inv c t st)
    (hinit : ∀ v, st.predecessors v = none →
      st.distances v = (initState c).distances v) :
    ∀ (fuel : ℕ) (a b : List String) (cur : String) (q : ℚ),
      t = a ++ cur :: b → a.length < fuel → st.distances cur = some q →
      ((walkPred st.predecessors fuel cur).map
          (fun n => delaysGet (identify_node_type c n))).sum =
        q + delaysGet (identify_node_type c cur) := by
  intro fuel
  induction fuel with
  | zero => exact fun a b cur q _ h _ => absurd h (Nat.not_lt_zero _)
  | succ fuel ih =>
    intro a b cur q hsplit hlen hq
    rcases hp : st.predecessors cur with _ | p
    · have hq0 : q = 0 := (initState_dist_some ((hinit cur hp) ▸ hq)).1
      have hwalk : walkPred st.predecessors (fuel + 1) cur = [cur] := by
        unfold walkPred; rw [hp]
      rw [hwalk]
      simp [hq0]
    · obtain ⟨_, hpedge, qp, hqp, hqcur⟩ := hInv cur p hp
      obtain rfl : q = qp + delaysGet (identify_node_type c p) := by
        rw [hq] at hqcur; exact Option.some.inj hqcur
      have hpa : p ∈ a := topo_src_before ht hwf hpedge hsplit
      obtain ⟨a₁, a₂, rfl⟩ := List.append_of_mem hpa
      have hsplit2 : t = a₁ ++ p :: (a₂ ++ cur :: b) := by
        rw [hsplit]; exact List.append_assoc a₁ (p :: a₂) (cur :: b)
      have hlen2 : a₁.length < fuel := by
        rw [List.length_append, List.length_cons] at hlen
        omega
      have hsum := ih a₁ (a₂ ++ cur :: b) p qp hsplit2 hlen2 hqp
      have hwalk : walkPred st.predecessors (fuel + 1) cur =
          cur :: walkPred st.predecessors fuel p := by
        conv_lhs => unfold walkPred
        rw [hp]
      rw [hwalk, List.map_cons, List.sum_cons, hsum]
      ring

/-- `calculate_path_delay` is the sum of the per-node delays. -/
theorem calculate_path_delay_eq_sum (c : DigitalCircuit) (path : List String) :
    calculate_path_delay c path =
      (path.map (fun n => delaysGet (identify_node_type c n))).sum := by
  unfold calculate_path_delay
  have key : ∀ (l : List String) (a : ℚ),
      l.foldl (fun total node => total + delaysGet (identify_node_type c node)) a =
        a + (l.map (fun n => delaysGet (identify_node_type c n))).sum := by
    intro l
    induction l with
    | nil => intro a; simp
    | cons x l ih =>
      intro a
      rw [List.foldl_cons, ih, List.map_cons, List.sum_cons]
      ring
  rw [key]
  ring

/-! ## Unfolding the branches of `find_critical_path` -/

theorem find_critical_path_cyclic {c : DigitalCircuit}
    (ht : topological_sort c = none) : find_critical_path c = .ok ([], some 0) := by
  unfold find_critical_path
  rw [ht]

theorem find_critical_path_err {c : DigitalCircuit} {t : List String}
    (ht : topological_sort c = some t)
    (he : maxByDistances (runDP c t).distances (outputNodes c) = none) :
    find_critical_path c = .error .valueErrorEmptyMax := by
  unfold find_critical_path
  rw [ht]
  dsimp only
  rw [he]

theorem find_critical_path_eq_ok {c : DigitalCircuit} {t : List String} {e : String}
    (ht : topological_sort c = some t)
    (he : maxByDistances (runDP c t).distances (outputNodes c) = some e) :
    find_critical_path c =
      .ok ((walkPred (runDP c t).predecessors c.nodes.length e).reverse,
           (runDP c t).distances e) := by
  unfold find_critical_path
  rw [ht]
  dsimp only
  rw [he]

theorem find_critical_path_st_snd (c : DigitalCircuit) :
    (find_critical_path_st c).2 = c := by
  unfold find_critical_path_st
  rcases topological_sort c with _ | t
  · rfl
  · dsimp only
    rcases maxByDistances (runDP c t).distances (outputNodes c) with _ | e <;> rfl

theorem find_critical_path_st_fst (c : DigitalCircuit) :
    (find_critical_path_st c).1 = find_critical_path c := by
  unfold find_critical_path_st find_critical_path
  rcases topological_sort c with _ | t
  · rfl
  · dsimp only
    rcases maxByDistances (runDP c t).distances (outputNodes c) with _ | e <;> rfl

/-! ## The specified properties -/

/-- C1: for every acyclic well-formed graph with at least one INPUT-typed
node and at least one OUTPUT-typed node, `find_critical_path` succeeds
(termination is inherent in the model: all functions are total) and
returns a path that is nonempty, whose first node has predecessor `None`,
whose last node is the selected OUTPUT node, and whose consecutive nodes
are joined by directed edges of the graph. -/
theorem C1_path_structure (c : DigitalCircuit) (hwf : WF c)
    (hacyc : ¬ HasCycle c)
    (hin : ∃ i ∈ c.nodes, identify_node_type c i = "INPUT")
    (hout : ∃ o ∈ c.nodes, identify_node_type c o = "OUTPUT") :
    ∃ (t path : List String) (d : Option ℚ) (e : String),
      topological_sort c = some t ∧
      find_critical_path c = .ok (path, d) ∧
      maxByDistances (runDP c t).distances (outputNodes c) = some e ∧
      identify_node_type c e = "OUTPUT" ∧
      path ≠ [] ∧
      path.getLast? = some e ∧
      (∃ v0, path.head? = some v0 ∧ (runDP c t).predecessors v0 = none) ∧
      path.Chain' (fun x y => (x, y) ∈ c.edges) := by
  obtain ⟨t, ht⟩ := topo_some_of_acyclic hacyc
  obtain ⟨o, ho_nodes, ho_type⟩ := hout
  have ho_out : o ∈ outputNodes c := mem_outputNodes.mpr ⟨ho_nodes, ho_type⟩
  obtain ⟨e, he⟩ := maxByDistances_some (List.ne_nil_of_mem ho_out)
  obtain ⟨he_nodes, he_type⟩ := mem_outputNodes.mp (maxByDistances_mem he)
  obtain ⟨a, b, hsplit⟩ := List.append_of_mem ((topo_mem ht).mpr he_nodes)
  have hlen : a.length < c.nodes.length := by
    have h1 : t.length = c.nodes.length := (topo_perm ht).length_eq
    rw [hsplit, List.length_append, List.length_cons] at h1
    omega
  obtain ⟨v0, hlast, hnone, hchain⟩ :=
    walkPred_spec hwf ht (runDP_Inv hwf ht) c.nodes.length a b e hsplit hlen
  refine ⟨t, (walkPred (runDP c t).predecessors c.nodes.length e).reverse,
    (runDP c t).distances e, e, ht, find_critical_path_eq_ok ht he, he, he_type,
    ?_, ?_, ⟨v0, ?_, hnone⟩, ?_⟩
  · simp [walkPred_ne_nil]
  · rw [List.getLast?_reverse]
    exact walkPred_head _ _ _
  · rw [List.head?_reverse]
    exact hlast
  · rw [List.chain'_reverse]
    exact hchain

/-- Witness for C1, at the linear-chain circuit. -/
theorem C1_path_structure_witness :
    WF cChain ∧ ¬ HasCycle cChain ∧
      (∃ i ∈ cChain.nodes, identify_node_type cChain i = "INPUT") ∧
      (∃ o ∈ cChain.nodes, identify_node_type cChain o = "OUTPUT") ∧
      (∃ (t path : List String) (d : Option ℚ) (e : String),
        topological_sort cChain = some t ∧
        find_critical_path cChain = .ok (path, d) ∧
        maxByDistances (runDP cChain t).distances (outputNodes cChain) = some e ∧
        identify_node_type cChain e = "OUTPUT" ∧
        path ≠ [] ∧
        path.getLast? = some e ∧
        (∃ v0, path.head? = some v0 ∧ (runDP cChain t).predecessors v0 = none) ∧
        path.Chain' (fun x y => (x, y) ∈ cChain.edges)) := by
  have hwf : WF cChain := by decide
  have hacyc : ¬ HasCycle cChain :=
    topo_no_cycle (show topological_sort cChain = some ["I1", "A1", "A2", "O1"] from rfl) hwf
  have hin : ∃ i ∈ cChain.nodes, identify_node_type cChain i = "INPUT" := by decide
  have hout : ∃ o ∈ cChain.nodes, identify_node_type cChain o = "OUTPUT" := by decide
  exact ⟨hwf, hacyc, hin, hout, C1_path_structure cChain hwf hacyc hin hout⟩

/-- C2: for every well-formed graph with a directed cycle,
`find_critical_path` reports the cyclic-graph error condition (the
`except NetworkXUnfeasible` branch, which prints the cycle message) and
returns the empty path with zero total delay; in particular it never
returns a nonempty path. -/
theorem C2_cycle_empty_result (c : DigitalCircuit) (hwf : WF c) (hcyc : HasCycle c) :
    find_critical_path c = .ok ([], some 0) ∧ cyclic_error_reported c = true := by
  have ht := topo_none_of_cycle hwf hcyc
  refine ⟨find_critical_path_cyclic ht, ?_⟩
  unfold cyclic_error_reported
  rw [ht]
  rfl

/-- Witness for C2, at the two-node cycle A → B → A. -/
theorem C2_cycle_empty_result_witness :
    WF cCyc ∧ HasCycle cCyc ∧
      (find_critical_path cCyc = .ok ([], some 0) ∧ cyclic_error_reported cCyc = true) := by
  have hwf : WF cCyc := by decide
  have hcyc : HasCycle cCyc :=
    ⟨"A", Relation.TransGen.head (show ("A", "B") ∈ cCyc.edges by decide)
      (Relation.TransGen.single (show ("B", "A") ∈ cCyc.edges by decide))⟩
  exact ⟨hwf, hcyc, C2_cycle_empty_result cCyc hwf hcyc⟩

/-- C3 counterexample: on the one-node circuit whose only node is an
OUTPUT (unreachable from any INPUT), `find_critical_path` returns the
path `["O1"]` with total delay `-inf`, while `calculate_path_delay`
returns the finite value `0.0` — the two disagree, so the claimed
unconditional equality is false. -/
theorem C3_counterexample :
    find_critical_path cOnlyOut = .ok (["O1"], none) ∧
      (some (calculate_path_delay cOnlyOut ["O1"]) : Option ℚ) ≠ none := by
  exact ⟨rfl, by simp⟩

/-- C3 as amended: whenever `find_critical_path` returns a path together
with a *finite* total delay, `calculate_path_delay` on that path equals
the returned delay.  (The claim fails only in the negative-infinity case
exhibited by the counterexample.) -/
theorem C3_delay_consistency (c : DigitalCircuit) (hwf : WF c)
    {path : List String} {q : ℚ}
    (h : find_critical_path c = .ok (path, some q)) :
    calculate_path_delay c path = q := by
  rcases ht : topological_sort c with _ | t
  · rw [find_critical_path_cyclic ht] at h
    obtain ⟨hpath, hq⟩ := Prod.mk.inj (Except.ok.inj h)
    obtain rfl : q = 0 := (Option.some.inj hq).symm
    rw [← hpath]
    rfl
  · rcases he : maxByDistances (runDP c t).distances (outputNodes c) with _ | e
    · rw [find_critical_path_err ht he] at h
      exact absurd h (by simp)
    · rw [find_critical_path_eq_ok ht he] at h
      obtain ⟨hpath, hq⟩ := Prod.mk.inj (Except.ok.inj h)
      obtain ⟨he_nodes, he_type⟩ := mem_outputNodes.mp (maxByDistances_mem he)
      obtain ⟨a, b, hsplit⟩ := List.append_of_mem ((topo_mem ht).mpr he_nodes)
      have hlen : a.length < c.nodes.length := by
        have h1 : t.length = c.nodes.length := (topo_perm ht).length_eq
        rw [hsplit, List.length_append, List.length_cons] at h1
        omega
      have hsum := walkPred_sum hwf ht (runDP_Inv hwf ht)
        (fun v hv => runDP_pred_none hv) c.nodes.length a b e q hsplit hlen hq
      rw [← hpath, calculate_path_delay_eq_sum, List.map_reverse, List.sum_reverse, hsum,
        he_type, (show delaysGet "OUTPUT" = 0 from rfl), add_zero]

/-- Witness for C3 (amended), at the linear-chain circuit: the returned
delay is finite there and the recomputation agrees. -/
theorem C3_delay_consistency_witness :
    WF cChain ∧
      ∃ q : ℚ, find_critical_path cChain = .ok (["I1", "A1", "A2", "O1"], some q) ∧
        calculate_path_delay cChain ["I1", "A1", "A2", "O1"] = q := by
  have hwf : WF cChain := by decide
  exact ⟨hwf, _, rfl, C3_delay_consistency cChain hwf rfl⟩

/-- C4 counterexample: on the acyclic circuit with a single INPUT node
and no OUTPUT node, `find_critical_path` fails with the builtin
`ValueError` raised by `max()` over the empty candidate sequence — not
with the spec's distinct `NoOutputNodeError` (which the code never
defines or raises). -/
theorem C4_counterexample :
    find_critical_path cNoOut = .error .valueErrorEmptyMax ∧
      find_critical_path cNoOut ≠ .error .noOutputNodeError := by
  refine ⟨rfl, ?_⟩
  intro h
  exact CircuitError.noConfusion (Except.error.inj h)

/-- C4 as amended: for every well-formed acyclic graph with no
OUTPUT-typed node, `find_critical_path` fails by raising an exception —
Python's builtin `ValueError` from `max()` over an empty sequence — but
this is not a distinct `NoOutputNodeError`; no such error exists in the
code. -/
theorem C4_no_output_error (c : DigitalCircuit) (hwf : WF c)
    (hacyc : ¬ HasCycle c)
    (hnoout : ∀ n ∈ c.nodes, identify_node_type c n ≠ "OUTPUT") :
    find_critical_path c = .error .valueErrorEmptyMax := by
  obtain ⟨t, ht⟩ := topo_some_of_acyclic hacyc
  have houts : outputNodes c = [] := by
    rcases houts : outputNodes c with _ | ⟨x, xs⟩
    · rfl
    · exfalso
      have hx : x ∈ outputNodes c := houts ▸ List.mem_cons_self x xs
      obtain ⟨hx1, hx2⟩ := mem_outputNodes.mp hx
      exact hnoout x hx1 hx2
  refine find_critical_path_err ht ?_
  rw [houts]
  rfl

/-- Witness for C4 (amended), at the INPUT-only circuit. -/
theorem C4_no_output_error_witness :
    WF cNoOut ∧ ¬ HasCycle cNoOut ∧
      (∀ n ∈ cNoOut.nodes, identify_node_type cNoOut n ≠ "OUTPUT") ∧
      find_critical_path cNoOut = .error .valueErrorEmptyMax := by
  have hwf : WF cNoOut := by decide
  have hacyc : ¬ HasCycle cNoOut :=
    topo_no_cycle (show topological_sort cNoOut = some ["I1"] from rfl) hwf
  have hnoout : ∀ n ∈ cNoOut.nodes, identify_node_type cNoOut n ≠ "OUTPUT" := by decide
  exact ⟨hwf, hacyc, hnoout, C4_no_output_error cNoOut hwf hacyc hnoout⟩

/-- C5: in every well-formed acyclic graph in which some OUTPUT node is
reachable from an INPUT node, the selected terminal node is itself
reachable from an INPUT, so an OUTPUT node unreachable from every INPUT
is never selected; moreover every unreachable node keeps distance
negative infinity (relaxation from a `-inf` node never advances a
successor to a finite value). -/
theorem C5_unreachable_never_selected (c : DigitalCircuit) (hwf : WF c)
    (hacyc : ¬ HasCycle c)
    (hreach : ∃ o ∈ c.nodes, identify_node_type c o = "OUTPUT" ∧ ReachableFromInput c o) :
    ∃ (t : List String) (e : String),
      topological_sort c = some t ∧
      maxByDistances (runDP c t).distances (outputNodes c) = some e ∧
      find_critical_path c =
        .ok ((walkPred (runDP c t).predecessors c.nodes.length e).reverse,
             (runDP c t).distances e) ∧
      ReachableFromInput c e ∧
      (∀ u, identify_node_type c u = "OUTPUT" → ¬ ReachableFromInput c u → e ≠ u) ∧
      (∀ u, ¬ ReachableFromInput c u → (runDP c t).distances u = none) := by
  obtain ⟨t, ht⟩ := topo_some_of_acyclic hacyc
  obtain ⟨o, ho_n, ho_t, ho_r⟩ := hreach
  have ho_out : o ∈ outputNodes c := mem_outputNodes.mpr ⟨ho_n, ho_t⟩
  obtain ⟨e, he⟩ := maxByDistances_some (List.ne_nil_of_mem ho_out)
  have ho_some : ((runDP c t).distances o).isSome := runDP_reach_isSome hwf ht o ho_r
  have he_some := maxByDistances_isSome he ho_out ho_some
  have he_reach : ReachableFromInput c e := by
    obtain ⟨q, hq⟩ := Option.isSome_iff_exists.mp he_some
    exact runDP_RInv t e q hq
  refine ⟨t, e, ht, he, find_critical_path_eq_ok ht he, he_reach,
    fun u _ hu hequ => hu (hequ ▸ he_reach), fun u hu => ?_⟩
  rcases hd : (runDP c t).distances u with _ | q
  · rfl
  · exact absurd (runDP_RInv t u q hd) hu

/-- Witness for C5, at the circuit with one reachable and one unreachable
OUTPUT. -/
theorem C5_unreachable_never_selected_witness :
    WF cTwoOut ∧ ¬ HasCycle cTwoOut ∧
      (∃ o ∈ cTwoOut.nodes, identify_node_type cTwoOut o = "OUTPUT" ∧
        ReachableFromInput cTwoOut o) ∧
      (∃ (t : List String) (e : String),
        topological_sort cTwoOut = some t ∧
        maxByDistances (runDP cTwoOut t).distances (outputNodes cTwoOut) = some e ∧
        find_critical_path cTwoOut =
          .ok ((walkPred (runDP cTwoOut t).predecessors cTwoOut.nodes.length e).reverse,
               (runDP cTwoOut t).distances e) ∧
        ReachableFromInput cTwoOut e ∧
        (∀ u, identify_node_type cTwoOut u = "OUTPUT" →
          ¬ ReachableFromInput cTwoOut u → e ≠ u) ∧
        (∀ u, ¬ ReachableFromInput cTwoOut u → (runDP cTwoOut t).distances u = none)) := by
  have hwf : WF cTwoOut := by decide
  have hacyc : ¬ HasCycle cTwoOut :=
    topo_no_cycle (show topological_sort cTwoOut = some ["I1", "O2", "O1"] from rfl) hwf
  have hreach : ∃ o ∈ cTwoOut.nodes, identify_node_type cTwoOut o = "OUTPUT" ∧
      ReachableFromInput cTwoOut o :=
    ⟨"O1", by decide, by decide,
      ⟨"I1", by decide, by decide,
        Relation.ReflTransGen.single (show ("I1", "O1") ∈ cTwoOut.edges by decide)⟩⟩
  exact ⟨hwf, hacyc, hreach, C5_unreachable_never_selected cTwoOut hwf hacyc hreach⟩

/-- C6: on the four-node linear chain with the default delay table,
`find_critical_path` returns exactly the path [I1, A1, A2, O1] with total
delay 2.0. -/
theorem C6_linear_chain :
    find_critical_path cChain = .ok (["I1", "A1", "A2", "O1"], some 2) := by
  have h : ∃ q : ℚ,
      find_critical_path cChain = .ok (["I1", "A1", "A2", "O1"], some q) ∧ q = 2 := by
    refine ⟨_, rfl, ?_⟩
    rw [(show delaysGet (identify_node_type cChain "I1") = 0 from rfl),
      (show delaysGet (identify_node_type cChain "A1") = 1 from rfl),
      (show delaysGet (identify_node_type cChain "A2") = 1 from rfl)]
    norm_num
  obtain ⟨q, hfind, hq⟩ := h
  rw [hq] at hfind
  exact hfind

/-- C7: a node id never registered in `node_types` is typed with the
UNKNOWN sentinel rather than failing, and a node whose type has no entry
in the delay table contributes exactly zero to `calculate_path_delay`
(removing it from a path leaves the total unchanged). -/
theorem C7_unknown_defaults (c : DigitalCircuit) (id n : String) (l1 l2 : List String)
    (hid : c.node_types id = none)
    (hn : delays.lookup (identify_node_type c n) = none) :
    identify_node_type c id = "UNKNOWN" ∧
      calculate_path_delay c (l1 ++ n :: l2) = calculate_path_delay c (l1 ++ l2) := by
  constructor
  · unfold identify_node_type
    rw [hid]
    rfl
  · rw [calculate_path_delay_eq_sum, calculate_path_delay_eq_sum, List.map_append,
      List.map_append, List.map_cons, List.sum_append, List.sum_append, List.sum_cons]
    have hz : delaysGet (identify_node_type c n) = 0 := by
      unfold delaysGet
      rw [hn]
      rfl
    rw [hz]
    ring

/-- Witness for C7: an id never mentioned by `cNoOut` is UNKNOWN-typed,
and inserting it into the path [I1] adds no delay. -/
theorem C7_unknown_defaults_witness :
    cNoOut.node_types "X" = none ∧
      delays.lookup (identify_node_type cNoOut "X") = none ∧
      (identify_node_type cNoOut "X" = "UNKNOWN" ∧
        calculate_path_delay cNoOut (["I1"] ++ "X" :: []) =
          calculate_path_delay cNoOut (["I1"] ++ [])) :=
  ⟨rfl, rfl, C7_unknown_defaults cNoOut "X" "X" ["I1"] [] rfl rfl⟩

/-- C8: running `find_critical_path` twice in succession on the same
analyzer state yields identical results — the first call hands back the
state unchanged, and the call is a pure function of that state. -/
theorem C8_idempotent (c : DigitalCircuit) :
    (find_critical_path_st ((find_critical_path_st c).2)).1 =
      (find_critical_path_st c).1 ∧
    (find_critical_path_st c).1 = find_critical_path c := by
  rw [find_critical_path_st_snd c]
  exact ⟨rfl, find_critical_path_st_fst c⟩

/-- C9: `find_critical_path` is read-only over the analyzer state: on
every input (cyclic ones included) the state it hands back — node list,
edge list and node-type map of the graph — is exactly the one it
received.  (The delay table is a constant of the embedding, fixed in
`__init__` and never written by any method, so it cannot change.) -/
theorem C9_read_only (c : DigitalCircuit) :
    (find_critical_path_st c).2 = c ∧
    (find_critical_path_st c).2.nodes = c.nodes ∧
    (find_critical_path_st c).2.edges = c.edges ∧
    (find_critical_path_st c).2.node_types = c.node_types := by
  have h := find_critical_path_st_snd c
  exact ⟨h, by rw [h], by rw [h], by rw [h]⟩

/-- C10: on a well-formed acyclic graph that has OUTPUT nodes but in which
every OUTPUT is unreachable from every INPUT, `find_critical_path` raises
no error: it returns a single-node path consisting of one OUTPUT node
(whose predecessor is still `None`) together with total delay negative
infinity. -/
theorem C10_all_outputs_unreachable (c : DigitalCircuit) (hwf : WF c)
    (hacyc : ¬ HasCycle c)
    (hout : ∃ o ∈ c.nodes, identify_node_type c o = "OUTPUT")
    (hunreach : ∀ o ∈ c.nodes, identify_node_type c o = "OUTPUT" →
      ¬ ReachableFromInput c o) :
    ∃ (t : List String) (o : String),
      topological_sort c = some t ∧
      find_critical_path c = .ok ([o], none) ∧
      identify_node_type c o = "OUTPUT" ∧
      (runDP c t).predecessors o = none := by
  obtain ⟨t, ht⟩ := topo_some_of_acyclic hacyc
  obtain ⟨o₀, ho₀n, ho₀t⟩ := hout
  have h0 : o₀ ∈ outputNodes c := mem_outputNodes.mpr ⟨ho₀n, ho₀t⟩
  obtain ⟨e, he⟩ := maxByDistances_some (List.ne_nil_of_mem h0)
  obtain ⟨hen, het⟩ := mem_outputNodes.mp (maxByDistances_mem he)
  have hd : (runDP c t).distances e = none := by
    rcases hd : (runDP c t).distances e with _ | q
    · rfl
    · exact absurd (runDP_RInv t e q hd) (hunreach e hen het)
  have hp : (runDP c t).predecessors e = none := by
    rcases hp : (runDP c t).predecessors e with _ | p
    · rfl
    · obtain ⟨_, _, qn, _, hq⟩ := runDP_Inv hwf ht e p hp
      rw [hd] at hq
      exact absurd hq (by simp)
  have hwalk : walkPred (runDP c t).predecessors c.nodes.length e = [e] := by
    rcases c.nodes.length with _ | fuel
    · rfl
    · unfold walkPred
      rw [hp]
  refine ⟨t, e, ht, ?_, het, hp⟩
  rw [find_critical_path_eq_ok ht he, hwalk, hd]
  rfl

/-- Witness for C10, at the OUTPUT-only circuit. -/
theorem C10_all_outputs_unreachable_witness :
    WF cOnlyOut ∧ ¬ HasCycle cOnlyOut ∧
      (∃ o ∈ cOnlyOut.nodes, identify_node_type cOnlyOut o = "OUTPUT") ∧
      (∀ o ∈ cOnlyOut.nodes, identify_node_type cOnlyOut o = "OUTPUT" →
        ¬ ReachableFromInput cOnlyOut o) ∧
      (∃ (t : List String) (o : String),
        topological_sort cOnlyOut = some t ∧
        find_critical_path cOnlyOut = .ok ([o], none) ∧
        identify_node_type cOnlyOut o = "OUTPUT" ∧
        (runDP cOnlyOut t).predecessors o = none) := by
  have hwf : WF cOnlyOut := by decide
  have hacyc : ¬ HasCycle cOnlyOut :=
    topo_no_cycle (show topological_sort cOnlyOut = some ["O1"] from rfl) hwf
  have hout : ∃ o ∈ cOnlyOut.nodes, identify_node_type cOnlyOut o = "OUTPUT" := by decide
  have hunreach : ∀ o ∈ cOnlyOut.nodes, identify_node_type cOnlyOut o = "OUTPUT" →
      ¬ ReachableFromInput cOnlyOut o := by
    intro o ho _
    rintro ⟨i, hi, hti, _⟩
    have hiO : i = "O1" := by simpa [cOnlyOut] using hi
    rw [hiO] at hti
    exact absurd hti (by decide)
  exact ⟨hwf, hacyc, hout, hunreach,
    C10_all_outputs_unreachable cOnlyOut hwf hacyc hout hunreach⟩

end CriticalPathTool
